import Mathlib

/-!
Verification of the IGA (isogeometric analysis) core from `src/IGA.py`:
the Cox–de Boor B-spline basis evaluator (`Bspline`), the rational
tensor-product NURBS surface basis (`NURBS_2D_Shape_Functions`), the mesh
topology builder and the stiffness assembler (`IGA2D`).

All arithmetic is modelled exactly over `ℚ`.  Division in `ℚ` is total
(`x / 0 = 0`), which is noted wherever the Python code would produce
`inf`/`nan` under IEEE semantics.
-/

namespace IGAspec

/-! ## 1-D B-spline basis (`Bspline`, src/IGA.py lines 30–105) -/

/-- Knot-vector lookup.  The Python code indexes a NumPy array whose accesses
always stay in range; out-of-range indices default to `0` here and are never
reached by in-range rows. -/
def kvF (kv : List ℚ) : ℕ → ℚ := fun j => kv.getD j 0

/-- `Bspline.__basis0` (lines 50–53): order-zero basis at index `i`,
`1` on the half-open knot span `[kv i, kv (i+1))` and `0` otherwise. -/
def basis0 (kv : ℕ → ℚ) (i : ℕ) (xi : ℚ) : ℚ :=
  if kv i ≤ xi ∧ xi < kv (i + 1) then 1 else 0

/-- The guarded term `np.where(denominator != 0.0, numerator / denominator, 0.0)`
of lines 84–89: a recursion term with a zero denominator contributes `0`. -/
def termCoef (num den : ℚ) : ℚ := if den ≠ 0 then num / den else 0

/-- `Bspline.__basis` (lines 55–92): the Cox–de Boor recursion.
`selfP` is the object's declared degree `self.p`, `deriv` the
`compute_derivatives` flag.  At degree `q+1` the two numerators are replaced
by the constants `p` and `-p` exactly when `deriv ∧ q+1 = selfP`
(lines 74–80); the recursive call passes `compute_derivatives = False`
(line 64), just as in the source.  Entry `i` of the degree-`p` row is
`first_term[i] * basis_p_minus_1[i] + second_term[i] * basis_p_minus_1[i+1]`
with the slice offsets of lines 66–71 and 91–92 resolved index-wise. -/
def basisAux (kv : ℕ → ℚ) (selfP : ℕ) : ℕ → Bool → ℕ → ℚ → ℚ
  | 0, _, i, xi => basis0 kv i xi
  | q + 1, deriv, i, xi =>
      termCoef (if deriv ∧ q + 1 = selfP then ((q : ℚ) + 1) else xi - kv i)
          (kv (i + q + 1) - kv i) *
        basisAux kv selfP q false i xi +
      termCoef (if deriv ∧ q + 1 = selfP then (-((q : ℚ) + 1)) else kv (i + q + 2) - xi)
          (kv (i + q + 2) - kv (i + 1)) *
        basisAux kv selfP q false (i + 1) xi

/-- Value of basis function `i` of degree `p` (what `Bspline.__call__` puts in
column `i`). -/
def evalBasis (kv : ℕ → ℚ) (p i : ℕ) (xi : ℚ) : ℚ := basisAux kv p p false i xi

/-- Value of the derivative column `i` (what `Bspline.d` puts in column `i`). -/
def derivBasis (kv : ℕ → ℚ) (p i : ℕ) (xi : ℚ) : ℚ := basisAux kv p p true i xi

/-- `Bspline.__call__` (line 95–99): the row of all basis values at `xi`;
the row length `len(knot_vector) - p - 1` reproduces the NumPy slice sizes. -/
def evalRow (kv : List ℚ) (p : ℕ) (xi : ℚ) : List ℚ :=
  (List.range (kv.length - p - 1)).map fun i => evalBasis (kvF kv) p i xi

/-- `Bspline.d` (lines 101–105): the row of all basis derivatives at `xi`. -/
def derivRow (kv : List ℚ) (p : ℕ) (xi : ℚ) : List ℚ :=
  (List.range (kv.length - p - 1)).map fun i => derivBasis (kvF kv) p i xi

/-- `Bspline.__init__` (lines 44–47): the constructor only stores its inputs,
performing no validation whatsoever. -/
structure Bspline where
  knot_vector : List ℚ
  p : ℕ

def mkBspline (knot_vector : List ℚ) (order : ℕ) : Bspline :=
  { knot_vector := knot_vector, p := order }

/-! ## NURBS surface basis (`NURBS_2D_Shape_Functions`, src/IGA.py lines 147–190) -/

/-- Number of basis functions of a knot vector / degree pair:
`len(knot_vector) - p - 1`. -/
def numBasis (kv : List ℚ) (p : ℕ) : ℕ := kv.length - p - 1

/-- Weight-grid lookup `weights[i, j]` for a grid stored as a list of rows. -/
def wf (w : List (List ℚ)) (i j : ℕ) : ℚ := (w.getD i []).getD j 0

/-- The rational denominator `W` of line 164:
`np.einsum('...i,...j,ij', self.N(xi), self.M(eta), self.weights)`. -/
def Wfun (kv1 : List ℚ) (p1 : ℕ) (kv2 : List ℚ) (p2 : ℕ) (w : ℕ → ℕ → ℚ)
    (xi eta : ℚ) : ℚ :=
  ∑ i in Finset.range (numBasis kv1 p1), ∑ j in Finset.range (numBasis kv2 p2),
    evalBasis (kvF kv1) p1 i xi * evalBasis (kvF kv2) p2 j eta * w i j

/-- `dW` of line 170: the `xi`-weighted-derivative sum
`np.einsum('...i,...j,ij', self.N.d(xi), self.M(eta), self.weights)`. -/
def dWxi (kv1 : List ℚ) (p1 : ℕ) (kv2 : List ℚ) (p2 : ℕ) (w : ℕ → ℕ → ℚ)
    (xi eta : ℚ) : ℚ :=
  ∑ i in Finset.range (numBasis kv1 p1), ∑ j in Finset.range (numBasis kv2 p2),
    derivBasis (kvF kv1) p1 i xi * evalBasis (kvF kv2) p2 j eta * w i j

/-- `dW` of line 177: the `eta` analogue. -/
def dWeta (kv1 : List ℚ) (p1 : ℕ) (kv2 : List ℚ) (p2 : ℕ) (w : ℕ → ℕ → ℚ)
    (xi eta : ℚ) : ℚ :=
  ∑ i in Finset.range (numBasis kv1 p1), ∑ j in Finset.range (numBasis kv2 p2),
    evalBasis (kvF kv1) p1 i xi * derivBasis (kvF kv2) p2 j eta * w i j

/-- Entry `(i, j)` of `R` (lines 160–166): `w_ij N_i(ξ) M_j(η) / W(ξ,η)`.
In ℚ a vanishing `W` makes the quotient `0`; the Python code would produce
`inf`/`nan` there. -/
def Rfun (kv1 : List ℚ) (p1 : ℕ) (kv2 : List ℚ) (p2 : ℕ) (w : ℕ → ℕ → ℚ)
    (xi eta : ℚ) (i j : ℕ) : ℚ :=
  evalBasis (kvF kv1) p1 i xi * evalBasis (kvF kv2) p2 j eta * w i j /
    Wfun kv1 p1 kv2 p2 w xi eta

/-- Entry `(i, j)` of the `derivative='xi'` branch as the code writes it
(lines 168–173): `R = (einsum(dN, M) * w + dW * R) / W` — note the `+` sign in
front of `dW * R`. -/
def dRxiCode (kv1 : List ℚ) (p1 : ℕ) (kv2 : List ℚ) (p2 : ℕ) (w : ℕ → ℕ → ℚ)
    (xi eta : ℚ) (i j : ℕ) : ℚ :=
  (derivBasis (kvF kv1) p1 i xi * evalBasis (kvF kv2) p2 j eta * w i j +
      dWxi kv1 p1 kv2 p2 w xi eta * Rfun kv1 p1 kv2 p2 w xi eta i j) /
    Wfun kv1 p1 kv2 p2 w xi eta

/-- Entry `(i, j)` of the `derivative='eta'` branch as the code writes it
(lines 175–180), again with `+ dW * R`. -/
def dRetaCode (kv1 : List ℚ) (p1 : ℕ) (kv2 : List ℚ) (p2 : ℕ) (w : ℕ → ℕ → ℚ)
    (xi eta : ℚ) (i j : ℕ) : ℚ :=
  (evalBasis (kvF kv1) p1 i xi * derivBasis (kvF kv2) p2 j eta * w i j +
      dWeta kv1 p1 kv2 p2 w xi eta * Rfun kv1 p1 kv2 p2 w xi eta i j) /
    Wfun kv1 p1 kv2 p2 w xi eta

/-- Modelled from the spec: the quotient-rule derivative the specification
prescribes for `derivative_xi`,
`∂R/∂ξ = (∂(w N M)/∂ξ - R · ∂W/∂ξ) / W`, written exactly as
`(numerator_using_dN_i * M_j * w_ij - dW * R) / W` (spec section 4.3);
the closed-form derivative of `R_ij = w_ij N_i M_j / W`. -/
def dRxiSpec (kv1 : List ℚ) (p1 : ℕ) (kv2 : List ℚ) (p2 : ℕ) (w : ℕ → ℕ → ℚ)
    (xi eta : ℚ) (i j : ℕ) : ℚ :=
  (derivBasis (kvF kv1) p1 i xi * evalBasis (kvF kv2) p2 j eta * w i j -
      dWxi kv1 p1 kv2 p2 w xi eta * Rfun kv1 p1 kv2 p2 w xi eta i j) /
    Wfun kv1 p1 kv2 p2 w xi eta

/-- `NURBS_2D_Shape_Functions.__init__` (lines 150–155): stores the two 1-D
bases and the weight grid, with no dimension check. -/
structure NURBS2D where
  N : Bspline
  M : Bspline
  weights : List (List ℚ)

def mkNURBS2D (knot_vector_1 : List ℚ) (p_1 : ℕ) (knot_vector_2 : List ℚ)
    (p_2 : ℕ) (weights : List (List ℚ)) : NURBS2D :=
  { N := mkBspline knot_vector_1 p_1, M := mkBspline knot_vector_2 p_2,
    weights := weights }

/-- Concrete weight grid used to exhibit the derivative sign defect: all
weights `1` except `w₁₁ = 2`. -/
def wC1 : ℕ → ℕ → ℚ := fun i j => if i = 1 ∧ j = 1 then 2 else 1

/-! ## Mesh topology (`IGA2D.__build_nurbs_coord_array`,
`IGA2D.__build_connectivity_array`, src/IGA.py lines 252–302) -/

/-- `__build_nurbs_coord_array` (lines 252–263): entry `g = j*n1 + i` of the
coordinate array is the index pair `(i, j)`. -/
def buildNurbsCoords (n1 n2 : ℕ) : List (ℕ × ℕ) :=
  ((List.range n2).map fun j => (List.range n1).map fun i => (i, j)).flatten

/-- One connectivity row for element corner `(i, j)` (line 301): the slice
`global_basis_ids[(j-p2):(j+1), (i-p1):(i+1)]` of the eta-major id grid
`grid[j][i] = j*n1 + i`, flattened row-major, then reversed (`[::-1]`). -/
def connRow (n1 p1 p2 i j : ℕ) : List ℕ :=
  (((List.range (p2 + 1)).map fun a =>
      (List.range (p1 + 1)).map fun b =>
        (j - p2 + a) * n1 + (i - p1 + b)).flatten).reverse

/-- `__build_connectivity_array` (lines 265–302): one row per element corner
`(i, j)` with `p1 ≤ i < n1`, `p2 ≤ j < n2`, iterated `j`-major. -/
def buildConnectivity (n1 n2 p1 p2 : ℕ) : List (List ℕ) :=
  ((List.range' p2 (n2 - p2)).map fun j =>
    (List.range' p1 (n1 - p1)).map fun i => connRow n1 p1 p2 i j).flatten

/-! ## Assembler state (`IGA2D`, src/IGA.py lines 219–403) -/

/-- The attribute state of an `IGA2D` object.  `__init__` (lines 222–249)
sets the NURBS data (knot vectors, degrees, weight grid), the flattened
control-point coordinates `x`/`y`, the four counts, `K`, `nurbs_coords` and
`connectivity_array`.  The attributes `dRdx`/`dRdy` are only created later,
as a side effect of `__compute_element_stiffness` (lines 383–387), hence they
start as `none`. -/
structure IGA2D where
  kv1 : List ℚ
  p1 : ℕ
  kv2 : List ℚ
  p2 : ℕ
  weights : List (List ℚ)
  x : List ℚ
  y : List ℚ
  num1 : ℕ
  num2 : ℕ
  numGlobal : ℕ
  numElems : ℕ
  K : ℕ → ℕ → ℚ
  nurbsCoords : List (ℕ × ℕ)
  connectivity : List (List ℕ)
  dRdx : Option (ℕ → ℕ → ℕ → ℚ)
  dRdy : Option (ℕ → ℕ → ℕ → ℚ)

/-- `IGA2D.__init__` (lines 222–249): stores everything derived from its
inputs; performs no validation of the knot vectors, degrees or weight-grid
dimensions. -/
def mkIGA2D (knot_vector_1 : List ℚ) (p_1 : ℕ) (knot_vector_2 : List ℚ)
    (p_2 : ℕ) (control_points : List (List (ℚ × ℚ)))
    (weights : List (List ℚ)) : IGA2D :=
  let n1 := knot_vector_1.length - p_1 - 1
  let n2 := knot_vector_2.length - p_2 - 1
  { kv1 := knot_vector_1, p1 := p_1, kv2 := knot_vector_2, p2 := p_2,
    weights := weights,
    x := control_points.flatten.map Prod.fst,
    y := control_points.flatten.map Prod.snd,
    num1 := n1, num2 := n2,
    numGlobal := n1 * n2,
    numElems := (n1 - p_1) * (n2 - p_2),
    K := fun _ _ => 0,
    nurbsCoords := buildNurbsCoords n1 n2,
    connectivity := buildConnectivity n1 n2 p_1 p_2,
    dRdx := none, dRdy := none }

/-- Stand-in for the output of `compute_gauss_points_and_weights`
(lines 13–27): the Gauss points and weights are produced by SciPy's
`legendre`/`fsolve`, external code, so the quadrature data enters the model
as a parameter (one point/weight list per direction). -/
structure GaussData where
  xiPts : List ℚ
  wXi : List ℚ
  etaPts : List ℚ
  wEta : List ℚ

/-- Connectivity row of element `e`. -/
def conRow (st : IGA2D) (e : ℕ) : List ℕ := st.connectivity.getD e []

/-- `ni` of line 316: first coordinate of `nurbs_coords[con[e, 0]]`. -/
def niOf (st : IGA2D) (e : ℕ) : ℕ :=
  (st.nurbsCoords.getD ((conRow st e).getD 0 0) (0, 0)).1

/-- `nj` of line 317. -/
def njOf (st : IGA2D) (e : ℕ) : ℕ :=
  (st.nurbsCoords.getD ((conRow st e).getD 0 0) (0, 0)).2

/-- Flattened quadrature grid (lines 325–332): `np.meshgrid` + `flatten`
makes Gauss point `g` correspond to `xi_[g % len(xi_)]`, `eta_[g / len(xi_)]`
and likewise for the weights. -/
def gXi (gq : GaussData) (g : ℕ) : ℚ := gq.xiPts.getD (g % gq.xiPts.length) 0

def gEta (gq : GaussData) (g : ℕ) : ℚ := gq.etaPts.getD (g / gq.xiPts.length) 0

def gWXi (gq : GaussData) (g : ℕ) : ℚ := gq.wXi.getD (g % gq.xiPts.length) 0

def gWEta (gq : GaussData) (g : ℕ) : ℚ := gq.wEta.getD (g / gq.xiPts.length) 0

/-- Number of quadrature points per element. -/
def nGauss (gq : GaussData) : ℕ := gq.xiPts.length * gq.etaPts.length

/-- Lines 338–339: affine map of Gauss point `g` into the parametric knot
span of element `e` in the `xi` direction. -/
def mapXi (gq : GaussData) (st : IGA2D) (g e : ℕ) : ℚ :=
  ((kvF st.kv1 (niOf st e + 1) - kvF st.kv1 (niOf st e)) * gXi gq g +
      (kvF st.kv1 (niOf st e + 1) + kvF st.kv1 (niOf st e))) / 2

/-- Lines 341–342: the `eta` analogue. -/
def mapEta (gq : GaussData) (st : IGA2D) (g e : ℕ) : ℚ :=
  ((kvF st.kv2 (njOf st e + 1) - kvF st.kv2 (njOf st e)) * gEta gq g +
      (kvF st.kv2 (njOf st e + 1) + kvF st.kv2 (njOf st e))) / 2

/-- Lines 346 and 352: `dRdxi` evaluated at quadrature point `g` of element
`e`, gathered at local basis slot `a`; the reshape to
`(-1, num_elements, num_basis)` flattens the `(n1, n2)` tensor axes
row-major, so global id `G` addresses tensor entry `(G / n2, G % n2)`. -/
def dRdxiLoc (gq : GaussData) (st : IGA2D) (g e a : ℕ) : ℚ :=
  dRxiCode st.kv1 st.p1 st.kv2 st.p2 (wf st.weights)
    (mapXi gq st g e) (mapEta gq st g e)
    ((conRow st e).getD a 0 / st.num2) ((conRow st e).getD a 0 % st.num2)

/-- Lines 347 and 353: the `eta` analogue. -/
def dRdetaLoc (gq : GaussData) (st : IGA2D) (g e a : ℕ) : ℚ :=
  dRetaCode st.kv1 st.p1 st.kv2 st.p2 (wf st.weights)
    (mapXi gq st g e) (mapEta gq st g e)
    ((conRow st e).getD a 0 / st.num2) ((conRow st e).getD a 0 % st.num2)

/-- Line 357: `J11 = np.sum(self.x[con] * dRdxi, axis=2)`. -/
def J11 (gq : GaussData) (st : IGA2D) (g e : ℕ) : ℚ :=
  ∑ a in Finset.range (conRow st e).length,
    st.x.getD ((conRow st e).getD a 0) 0 * dRdxiLoc gq st g e a

/-- Line 358. -/
def J12 (gq : GaussData) (st : IGA2D) (g e : ℕ) : ℚ :=
  ∑ a in Finset.range (conRow st e).length,
    st.x.getD ((conRow st e).getD a 0) 0 * dRdetaLoc gq st g e a

/-- Line 359. -/
def J21 (gq : GaussData) (st : IGA2D) (g e : ℕ) : ℚ :=
  ∑ a in Finset.range (conRow st e).length,
    st.y.getD ((conRow st e).getD a 0) 0 * dRdxiLoc gq st g e a

/-- Line 360. -/
def J22 (gq : GaussData) (st : IGA2D) (g e : ℕ) : ℚ :=
  ∑ a in Finset.range (conRow st e).length,
    st.y.getD ((conRow st e).getD a 0) 0 * dRdetaLoc gq st g e a

/-- Line 363: `detJ = J11 * J22 - J12 * J21`. -/
def detJ (gq : GaussData) (st : IGA2D) (g e : ℕ) : ℚ :=
  J11 gq st g e * J22 gq st g e - J12 gq st g e * J21 gq st g e

/-- Lines 366–369: the Jacobian inverse entries are computed by dividing by
`detJ` with no zero test whatsoever.  In ℚ, `x / 0 = 0`; under NumPy's IEEE
arithmetic a zero `detJ` silently yields `inf`/`nan` here. -/
def Jinv11 (gq : GaussData) (st : IGA2D) (g e : ℕ) : ℚ :=
  J22 gq st g e / detJ gq st g e

def Jinv12 (gq : GaussData) (st : IGA2D) (g e : ℕ) : ℚ :=
  -J12 gq st g e / detJ gq st g e

def Jinv21 (gq : GaussData) (st : IGA2D) (g e : ℕ) : ℚ :=
  -J21 gq st g e / detJ gq st g e

def Jinv22 (gq : GaussData) (st : IGA2D) (g e : ℕ) : ℚ :=
  J11 gq st g e / detJ gq st g e

/-- Line 372: `dxidxi`, half the knot-span width of element `e`. -/
def dxidxi (st : IGA2D) (e : ℕ) : ℚ :=
  (kvF st.kv1 (niOf st e + 1) - kvF st.kv1 (niOf st e)) / 2

/-- Line 373: `detadeta`. -/
def detadeta (st : IGA2D) (e : ℕ) : ℚ :=
  (kvF st.kv2 (njOf st e + 1) - kvF st.kv2 (njOf st e)) / 2

/-- Line 380: the quadrature-weighted Jacobian determinant. -/
def detJw (gq : GaussData) (st : IGA2D) (g e : ℕ) : ℚ :=
  detJ gq st g e * dxidxi st e * detadeta st e * gWXi gq g * gWEta gq g

/-- Lines 383–384: `self.dRdx = dRdxi * Jinv11 + dRdeta * Jinv12`, the
physical-space gradient (the source's fancy index
`[:, np.arange(...), np.newaxis]` coincides with broadcasting over the
element axis whenever the expression is defined). -/
def dRdxLoc (gq : GaussData) (st : IGA2D) (g e a : ℕ) : ℚ :=
  dRdxiLoc gq st g e a * Jinv11 gq st g e + dRdetaLoc gq st g e a * Jinv12 gq st g e

/-- Lines 386–387. -/
def dRdyLoc (gq : GaussData) (st : IGA2D) (g e a : ℕ) : ℚ :=
  dRdxiLoc gq st g e a * Jinv21 gq st g e + dRdetaLoc gq st g e a * Jinv22 gq st g e

/-- Lines 390–392: the element stiffness matrices, summed over quadrature
points. -/
def keFun (gq : GaussData) (st : IGA2D) (e a b : ℕ) : ℚ :=
  ∑ g in Finset.range (nGauss gq),
    (dRdxLoc gq st g e a * dRdxLoc gq st g e b +
      dRdyLoc gq st g e a * dRdyLoc gq st g e b) * detJw gq st g e

/-- One scatter-add `self.K[np.ix_(con_i, con_i)] += ke[i]` (lines 401–403):
entry `(row[a], row[b])` receives `ke a b`; connectivity rows have pairwise
distinct entries, for which NumPy's buffered fancy-index `+=` is exactly this
pointwise update. -/
def scatterAdd (K : ℕ → ℕ → ℚ) (row : List ℕ) (ke : ℕ → ℕ → ℚ) :
    ℕ → ℕ → ℚ := fun r c =>
  if r ∈ row ∧ c ∈ row then K r c + ke (row.indexOf r) (row.indexOf c)
  else K r c

/-- `IGA2D.assemble` (lines 395–403): runs `__compute_element_stiffness`
(which stores `dRdx`/`dRdy` on the object and returns `ke`), then scatters
each element block into `K`. -/
def assemble (gq : GaussData) (st : IGA2D) : IGA2D :=
  { st with
    dRdx := some (dRdxLoc gq st), dRdy := some (dRdyLoc gq st),
    K := (List.range st.numElems).foldl
      (fun K e => scatterAdd K (conRow st e) (keFun gq st e)) st.K }

/-- The amount `scatterAdd` adds at position `(r, c)`. -/
def scatterTerm (row : List ℕ) (ke : ℕ → ℕ → ℚ) (r c : ℕ) : ℚ :=
  if r ∈ row ∧ c ∈ row then ke (row.indexOf r) (row.indexOf c) else 0

/-- The knot sequence extended monotonically past the end of the list
(last-entry padding); it agrees with `kvF` on all in-range indices, which are
the only ones a basis row ever reads. -/
def kvE (kv : List ℚ) : ℕ → ℚ := fun j => kvF kv (min j (kv.length - 1))

/-! ## Concrete instances used by the individual claims -/

/-- A 3×3 grid of unit weights. -/
def wOne : List (List ℚ) := [[1, 1, 1], [1, 1, 1], [1, 1, 1]]

/-- Degenerate geometry: every control point at the origin, so every element
mapping has a zero Jacobian determinant. -/
def cptsZero : List (List (ℚ × ℚ)) :=
  [[(0, 0), (0, 0), (0, 0)], [(0, 0), (0, 0), (0, 0)], [(0, 0), (0, 0), (0, 0)]]

/-- A regular 3×3 control-point grid on `[0,2] × [0,2]`. -/
def cptsC8 : List (List (ℚ × ℚ)) :=
  [[(0, 0), (1, 0), (2, 0)], [(0, 1), (1, 1), (2, 1)], [(0, 2), (1, 2), (2, 2)]]

/-- Two rational stand-in Gauss points/weights per direction (the SciPy values
`±1/√3` are irrational; the quadrature data is a model parameter). -/
def gq2pt : GaussData := ⟨[-1/2, 1/2], [1, 1], [-1/2, 1/2], [1, 1]⟩

/-- A 2×2-element bilinear patch (knot vectors `[0,0,1,2,2]`) with all control
points at the origin: four elements, four quadrature points each, `detJ = 0`
everywhere. -/
def stC2 : IGA2D := mkIGA2D [0, 0, 1, 2, 2] 1 [0, 0, 1, 2, 2] 1 cptsZero wOne

/-- The same 2×2-element patch with a regular control-point grid. -/
def stC8 : IGA2D := mkIGA2D [0, 0, 1, 2, 2] 1 [0, 0, 1, 2, 2] 1 cptsC8 wOne

/-! ## Theorems -/

theorem termCoef_zero_den (num : ℚ) : termCoef num 0 = 0 := by
  simp [termCoef]

/-- C4: in the Cox–de Boor recursion at every degree `q + 1 > 0`, for every
evaluation point and basis index, a recurrence term whose denominator
(`knot[i+p]-knot[i]`, resp. `knot[i+p+1]-knot[i+1]`) is exactly zero
contributes exactly `0` — the whole result collapses to the other term — in
value mode and in derivative mode alike, so the guarded recursion never
divides by a zero denominator (the model is exact rational arithmetic, where
every value is finite). -/
theorem zero_denominator_term_drops (kv : ℕ → ℚ) (sp : ℕ) (b : Bool)
    (q i : ℕ) (xi : ℚ) :
    (kv (i + q + 1) - kv i = 0 →
      basisAux kv sp (q + 1) b i xi =
        termCoef (if b ∧ q + 1 = sp then (-((q : ℚ) + 1)) else kv (i + q + 2) - xi)
            (kv (i + q + 2) - kv (i + 1)) *
          basisAux kv sp q false (i + 1) xi) ∧
    (kv (i + q + 2) - kv (i + 1) = 0 →
      basisAux kv sp (q + 1) b i xi =
        termCoef (if b ∧ q + 1 = sp then ((q : ℚ) + 1) else xi - kv i)
            (kv (i + q + 1) - kv i) *
          basisAux kv sp q false i xi) := by
  constructor <;> intro h <;> simp [basisAux, h, termCoef_zero_den]

/-- Witness for C4 at the repeated leading knot of `[0, 0, 1, 1]`. -/
theorem zero_denominator_term_drops_witness :
    (kvF [0, 0, 1, 1] (0 + 0 + 1) - kvF [0, 0, 1, 1] 0 = 0) ∧
    basisAux (kvF [0, 0, 1, 1]) 1 (0 + 1) false 0 (1/2) =
      termCoef (if false ∧ 0 + 1 = 1 then (-((0 : ℚ) + 1))
          else kvF [0, 0, 1, 1] (0 + 0 + 2) - 1/2)
        (kvF [0, 0, 1, 1] (0 + 0 + 2) - kvF [0, 0, 1, 1] (0 + 1)) *
      basisAux (kvF [0, 0, 1, 1]) 1 0 false (0 + 1) (1/2) :=
  ⟨by norm_num [kvF],
   (zero_denominator_term_drops (kvF [0, 0, 1, 1]) 1 false 0 0 (1/2)).1
     (by norm_num [kvF])⟩

/-- C5: for a `Bspline` of declared degree `selfP`, derivative evaluation
agrees with value evaluation at every recursion level other than the top one
(in particular on all levels below it), and at the top level (`q + 1 = selfP`)
it consists of the recurrence applied to ordinary degree-`q` values with the
two numerators replaced by the constants `p` and `-p`. -/
theorem derivative_top_level_only (kv : ℕ → ℚ) (sp : ℕ) :
    (∀ q i, ∀ xi : ℚ, q ≠ sp →
      basisAux kv sp q true i xi = basisAux kv sp q false i xi) ∧
    (∀ q i, ∀ xi : ℚ, q + 1 = sp →
      basisAux kv sp (q + 1) true i xi =
        termCoef ((q : ℚ) + 1) (kv (i + q + 1) - kv i) *
          basisAux kv sp q false i xi +
        termCoef (-((q : ℚ) + 1)) (kv (i + q + 2) - kv (i + 1)) *
          basisAux kv sp q false (i + 1) xi) := by
  constructor
  · intro q i xi hq
    cases q with
    | zero => simp [basisAux]
    | succ q => simp [basisAux, hq]
  · intro q i xi hq
    simp [basisAux, hq]

/-- Witness for C5 on `[0, 0, 1, 1]` with declared degree `1`. -/
theorem derivative_top_level_only_witness :
    ((0 : ℕ) ≠ 1 ∧
      basisAux (kvF [0, 0, 1, 1]) 1 0 true 0 (1/2) =
        basisAux (kvF [0, 0, 1, 1]) 1 0 false 0 (1/2)) ∧
    ((0 : ℕ) + 1 = 1 ∧
      basisAux (kvF [0, 0, 1, 1]) 1 (0 + 1) true 0 (1/2) =
        termCoef ((0 : ℚ) + 1) (kvF [0, 0, 1, 1] (0 + 0 + 1) - kvF [0, 0, 1, 1] 0) *
          basisAux (kvF [0, 0, 1, 1]) 1 0 false 0 (1/2) +
        termCoef (-((0 : ℚ) + 1))
            (kvF [0, 0, 1, 1] (0 + 0 + 2) - kvF [0, 0, 1, 1] (0 + 1)) *
          basisAux (kvF [0, 0, 1, 1]) 1 0 false (0 + 1) (1/2)) :=
  ⟨⟨by norm_num,
    (derivative_top_level_only (kvF [0, 0, 1, 1]) 1).1 0 0 (1/2) (by norm_num)⟩,
   ⟨rfl, (derivative_top_level_only (kvF [0, 0, 1, 1]) 1).2 0 0 (1/2) rfl⟩⟩

/-- C1: the claim fails on the code.  On the bilinear patch `[0,0,1,1]²` with
weights `1` except `w₁₁ = 2`, at `(ξ, η) = (1/2, 1/2)`, the `derivative='xi'`
branch of `NURBS_2D_Shape_Functions.__call__` — which computes
`(dN·M·w + dW·R)/W` — returns `-8/25` at entry `(0,0)`, while the
quotient-rule expression `(dN·M·w - dW·R)/W` the spec prescribes (the true
derivative of `R₀₀`) equals `-12/25`: the code adds `dW·R` where the
mathematics subtracts it. -/
theorem dxi_code_ne_quotient_rule :
    dRxiCode [0, 0, 1, 1] 1 [0, 0, 1, 1] 1 wC1 (1/2) (1/2) 0 0 = -8/25 ∧
    dRxiSpec [0, 0, 1, 1] 1 [0, 0, 1, 1] 1 wC1 (1/2) (1/2) 0 0 = -12/25 ∧
    dRxiCode [0, 0, 1, 1] 1 [0, 0, 1, 1] 1 wC1 (1/2) (1/2) 0 0 ≠
      dRxiSpec [0, 0, 1, 1] 1 [0, 0, 1, 1] 1 wC1 (1/2) (1/2) 0 0 := by
  norm_num [dRxiCode, dRxiSpec, dWxi, Rfun, Wfun, numBasis, evalBasis,
    derivBasis, basisAux, basis0, termCoef, kvF, wC1, Finset.sum_range_succ]

/-- C9: the claim fails on the code.  `Bspline.__init__`,
`NURBS_2D_Shape_Functions.__init__` and `IGA2D.__init__` perform no
validation: a non-ordered knot vector `[1, 0, 2]` is stored as-is and
evaluation proceeds normally on it (returning `[3/4]` at `ξ = 1/2`), and a
`1×1` weight grid is stored although the basis counts demand `1×2` —
construction never fails. -/
theorem constructors_skip_validation :
    (mkBspline [1, 0, 2] 1).knot_vector = [1, 0, 2] ∧
    (mkBspline [1, 0, 2] 1).p = 1 ∧
    evalRow [1, 0, 2] 1 (1/2) = [3/4] ∧
    (mkNURBS2D [1, 0, 2] 1 [0, 0, 1, 1] 1 [[5]]).weights = [[5]] ∧
    numBasis [1, 0, 2] 1 = 1 ∧
    numBasis [0, 0, 1, 1] 1 = 2 ∧
    (mkIGA2D [1, 0, 2] 1 [0, 0, 1, 1] 1 [[((0 : ℚ), (0 : ℚ))]] [[5]]).weights
      = [[5]] ∧
    (mkIGA2D [1, 0, 2] 1 [0, 0, 1, 1] 1 [[((0 : ℚ), (0 : ℚ))]] [[5]]).num1 = 1 := by
  refine ⟨rfl, rfl, ?_, rfl, rfl, rfl, rfl, rfl⟩
  norm_num [evalRow, evalBasis, basisAux, basis0, termCoef, kvF, List.range_succ]

/-! ### Structural lemmas about the Cox–de Boor recursion -/

theorem kvF_mono (kv : List ℚ) (hs : List.Sorted (· ≤ ·) kv) {a b : ℕ}
    (hab : a ≤ b) (hb : b < kv.length) : kvF kv a ≤ kvF kv b := by
  rcases eq_or_lt_of_le hab with rfl | h
  · exact le_refl _
  · have ha : a < kv.length := lt_trans h hb
    rw [kvF, kvF, List.getD_eq_getElem _ _ ha, List.getD_eq_getElem _ _ hb]
    exact List.pairwise_iff_get.mp hs ⟨a, ha⟩ ⟨b, hb⟩ h

theorem kvE_eq_kvF (kv : List ℚ) {j : ℕ} (hj : j ≤ kv.length - 1) :
    kvE kv j = kvF kv j := by
  simp [kvE, Nat.min_eq_left hj]

theorem kvE_mono (kv : List ℚ) (hs : List.Sorted (· ≤ ·) kv) :
    Monotone (kvE kv) := by
  intro a b hab
  rcases Nat.eq_zero_or_pos kv.length with h0 | hpos
  · simp [kvE, kvF, List.length_eq_zero.mp h0]
  · exact kvF_mono kv hs (min_le_min hab (le_refl _))
      (lt_of_le_of_lt (Nat.min_le_right _ _) (Nat.sub_lt hpos Nat.one_pos))

/-- `basisAux` in value mode reads the knot sequence only at indices
`i, …, i + q + 1`. -/
theorem basisAux_congr (kv kv' : ℕ → ℚ) (sp : ℕ) :
    ∀ q i, ∀ xi : ℚ, (∀ j, i ≤ j → j ≤ i + q + 1 → kv j = kv' j) →
      basisAux kv sp q false i xi = basisAux kv' sp q false i xi := by
  intro q
  induction q with
  | zero =>
    intro i xi h
    simp only [basisAux, basis0, h i (le_refl _) (by omega),
      h (i + 1) (by omega) (by omega)]
  | succ q ih =>
    intro i xi h
    simp only [basisAux]
    rw [h i (le_refl _) (by omega), h (i + q + 1) (by omega) (by omega),
      h (i + q + 2) (by omega) (by omega), h (i + 1) (by omega) (by omega),
      ih i xi (fun j h1 h2 => h j h1 (by omega)),
      ih (i + 1) xi (fun j h1 h2 => h j (by omega) (by omega))]

/-- If every knot a row entry can read lies at or below `xi`, the entry is
zero (no half-open span `[k_j, k_{j+1})` can contain `xi`); this holds in
value and derivative mode alike. -/
theorem basisAux_zero_of_upper (kv : ℕ → ℚ) (sp : ℕ) :
    ∀ q (b : Bool) i, ∀ xi : ℚ, (∀ j, j ≤ i + q + 1 → kv j ≤ xi) →
      basisAux kv sp q b i xi = 0 := by
  intro q
  induction q with
  | zero =>
    intro b i xi h
    show basis0 kv i xi = 0
    rw [basis0, if_neg]
    rintro ⟨-, h2⟩
    exact absurd h2 (not_lt.mpr (h (i + 1) (by omega)))
  | succ q ih =>
    intro b i xi h
    simp only [basisAux]
    rw [ih false i xi (fun j hj => h j (by omega)),
      ih false (i + 1) xi (fun j hj => h j (by omega))]
    ring

/-- Local support: a degree-`q` basis value vanishes outside
`[kv i, kv (i+q+1))`. -/
theorem basisAux_support (kv : ℕ → ℚ) (hm : Monotone kv) (sp : ℕ) :
    ∀ q i, ∀ xi : ℚ, (xi < kv i ∨ kv (i + q + 1) ≤ xi) →
      basisAux kv sp q false i xi = 0 := by
  intro q
  induction q with
  | zero =>
    intro i xi h
    show basis0 kv i xi = 0
    rw [basis0, if_neg]
    rintro ⟨h1, h2⟩
    rcases h with h | h
    · exact absurd h1 (not_le.mpr h)
    · exact absurd h2 (not_lt.mpr (by simpa using h))
  | succ q ih =>
    intro i xi h
    simp only [basisAux]
    rcases h with h | h
    · rw [ih i xi (Or.inl h),
        ih (i + 1) xi (Or.inl (lt_of_lt_of_le h (hm (by omega))))]
      ring
    · have h1 : kv (i + q + 1) ≤ xi :=
        le_trans (hm (by omega : i + q + 1 ≤ i + (q + 1) + 1)) h
      have h2 : kv ((i + 1) + q + 1) ≤ xi := by
        have e : (i + 1) + q + 1 = i + (q + 1) + 1 := by omega
        rw [e]; exact h
      rw [ih i xi (Or.inr h1), ih (i + 1) xi (Or.inr h2)]
      ring

/-- Local partition of unity for the guarded recursion: on the knot span
`[kv (t+q), kv (t+q+1))` the `q+1` basis functions with support there sum
to `1`. -/
theorem basisAux_local_sum (kv : ℕ → ℚ) (hm : Monotone kv) (sp : ℕ) (xi : ℚ) :
    ∀ q t, kv (t + q) ≤ xi → xi < kv (t + q + 1) →
      ∑ i in Finset.range (q + 1), basisAux kv sp q false (t + i) xi = 1 := by
  intro q
  induction q with
  | zero =>
    intro t h1 h2
    rw [Finset.sum_range_one]
    show basis0 kv t xi = 1
    rw [basis0, if_pos ⟨h1, h2⟩]
  | succ q ih =>
    intro t h1 h2
    have hB0 : basisAux kv sp q false t xi = 0 :=
      basisAux_support kv hm sp q t xi (Or.inr h1)
    have hBtop : basisAux kv sp q false (t + (q + 1) + 1) xi = 0 := by
      refine basisAux_support kv hm sp q (t + (q + 1) + 1) xi (Or.inl ?_)
      exact lt_of_lt_of_le h2 (hm (by omega))
    calc
      ∑ i in Finset.range (q + 2), basisAux kv sp (q + 1) false (t + i) xi
          = ∑ i in Finset.range (q + 2),
              (termCoef (xi - kv (t + i)) (kv (t + i + q + 1) - kv (t + i)) *
                basisAux kv sp q false (t + i) xi +
              termCoef (kv (t + i + q + 2) - xi)
                  (kv (t + i + q + 2) - kv (t + i + 1)) *
                basisAux kv sp q false (t + i + 1) xi) := by
            refine Finset.sum_congr rfl fun i _ => ?_
            simp only [basisAux, Bool.false_eq_true, false_and, if_false]
      _ = (∑ i in Finset.range (q + 2),
              termCoef (xi - kv (t + i)) (kv (t + i + q + 1) - kv (t + i)) *
                basisAux kv sp q false (t + i) xi) +
          ∑ i in Finset.range (q + 2),
              termCoef (kv (t + i + q + 2) - xi)
                  (kv (t + i + q + 2) - kv (t + i + 1)) *
                basisAux kv sp q false (t + i + 1) xi :=
            Finset.sum_add_distrib
      _ = (∑ i in Finset.range (q + 1),
              termCoef (xi - kv (t + i + 1)) (kv (t + i + q + 2) - kv (t + i + 1)) *
                basisAux kv sp q false (t + i + 1) xi) +
          ∑ i in Finset.range (q + 1),
              termCoef (kv (t + i + q + 2) - xi)
                  (kv (t + i + q + 2) - kv (t + i + 1)) *
                basisAux kv sp q false (t + i + 1) xi := by
            congr 1
            · rw [Finset.sum_range_succ'
                (fun i => termCoef (xi - kv (t + i)) (kv (t + i + q + 1) - kv (t + i)) *
                  basisAux kv sp q false (t + i) xi) (q + 1)]
              rw [show t + 0 = t from rfl, hB0, mul_zero, add_zero]
              refine Finset.sum_congr rfl fun i _ => ?_
              have e1 : t + (i + 1) = t + i + 1 := by omega
              rw [e1, show t + i + 1 + q + 1 = t + i + q + 2 from by omega]
            · rw [Finset.sum_range_succ
                (fun i => termCoef (kv (t + i + q + 2) - xi)
                  (kv (t + i + q + 2) - kv (t + i + 1)) *
                  basisAux kv sp q false (t + i + 1) xi) (q + 1)]
              rw [hBtop, mul_zero, add_zero]
      _ = ∑ i in Finset.range (q + 1), basisAux kv sp q false (t + i + 1) xi := by
            rw [← Finset.sum_add_distrib]
            refine Finset.sum_congr rfl fun i _ => ?_
            rw [← add_mul]
            by_cases hD : kv (t + i + q + 2) - kv (t + i + 1) = 0
            · have hknot : kv (t + i + q + 2) = kv (t + i + 1) := by linarith
              have hz : basisAux kv sp q false (t + i + 1) xi = 0 := by
                rcases le_or_lt (kv (t + i + 1)) xi with hc | hc
                · refine basisAux_support kv hm sp q (t + i + 1) xi (Or.inr ?_)
                  have e : t + i + 1 + q + 1 = t + i + q + 2 := by omega
                  rw [e, hknot]; exact hc
                · exact basisAux_support kv hm sp q (t + i + 1) xi (Or.inl hc)
              rw [hz, mul_zero]
            · have hco : termCoef (xi - kv (t + i + 1))
                    (kv (t + i + q + 2) - kv (t + i + 1)) +
                  termCoef (kv (t + i + q + 2) - xi)
                    (kv (t + i + q + 2) - kv (t + i + 1)) = 1 := by
                rw [termCoef, termCoef, if_pos hD, if_pos hD, div_add_div_same]
                rw [show xi - kv (t + i + 1) + (kv (t + i + q + 2) - xi) =
                  kv (t + i + q + 2) - kv (t + i + 1) from by ring]
                exact div_self hD
              rw [hco, one_mul]
      _ = ∑ i in Finset.range (q + 1), basisAux kv sp q false ((t + 1) + i) xi := by
            refine Finset.sum_congr rfl fun i _ => ?_
            rw [show t + i + 1 = (t + 1) + i from by omega]
      _ = 1 := by
            refine ih (t + 1) ?_ ?_
            · rw [show t + 1 + q = t + (q + 1) from by omega]; exact h1
            · rw [show t + 1 + q + 1 = t + (q + 1) + 1 from by omega]; exact h2

/-- Discrete intermediate value: a decidable predicate true at `lo` and false
at `hi` flips somewhere in between. -/
theorem exists_flip (P : ℕ → Prop) [DecidablePred P] (lo hi : ℕ)
    (hlh : lo < hi) (hlo : P lo) (hhi : ¬P hi) :
    ∃ s, lo ≤ s ∧ s < hi ∧ P s ∧ ¬P (s + 1) := by
  refine ⟨Nat.findGreatest P (hi - 1), ?_, ?_, ?_, ?_⟩
  · exact Nat.le_findGreatest (by omega) hlo
  · have := Nat.findGreatest_le (P := P) (hi - 1)
    omega
  · exact Nat.findGreatest_spec (by omega : lo ≤ hi - 1) hlo
  · intro hsucc
    rcases Nat.lt_or_ge (Nat.findGreatest P (hi - 1)) (hi - 1) with h | h
    · exact Nat.findGreatest_is_greatest (Nat.lt_succ_self _) (by omega) hsucc
    · have := Nat.findGreatest_le (P := P) (hi - 1)
      have : Nat.findGreatest P (hi - 1) + 1 = hi := by omega
      rw [this] at hsucc
      exact hhi hsucc

theorem list_sum_map_range (f : ℕ → ℚ) (n : ℕ) :
    ((List.range n).map f).sum = ∑ i in Finset.range n, f i := by
  induction n with
  | zero => simp
  | succ n ih => rw [List.range_succ, List.map_append, List.sum_append,
      Finset.sum_range_succ, ih]; simp

/-- C7: partition of unity.  For every non-decreasing knot vector, degree `p`
with at least one basis function, and evaluation point `ξ` inside the valid
domain `[knot[p], knot[n])` (with `n = len - p - 1` the number of basis
functions), the entries of the evaluated row of `Bspline.__call__` sum to
exactly `1`. -/
theorem bspline_partition_of_unity (kv : List ℚ) (p : ℕ) (xi : ℚ)
    (hs : List.Sorted (· ≤ ·) kv) (hp : p + 1 < kv.length)
    (hlo : kvF kv p ≤ xi) (hhi : xi < kvF kv (kv.length - p - 1)) :
    (evalRow kv p xi).sum = 1 := by
  set L := kv.length with hL
  set n := L - p - 1 with hn
  have hn1 : 1 ≤ n := by omega
  have hnL : n + p + 1 = L := by omega
  rw [evalRow, list_sum_map_range]
  have hm := kvE_mono kv hs
  have hswap : ∀ i ∈ Finset.range n,
      evalBasis (kvF kv) p i xi = basisAux (kvE kv) p p false i xi := by
    intro i hi
    rw [Finset.mem_range] at hi
    exact basisAux_congr (kvF kv) (kvE kv) p p i xi
      (fun j h1 h2 => (kvE_eq_kvF kv (by omega)).symm)
  rw [Finset.sum_congr rfl hswap]
  rcases Nat.lt_or_ge p n with hpn | hpn
  · have hPlo : kvE kv p ≤ xi := by
      rw [kvE_eq_kvF kv (by omega)]; exact hlo
    have hPhi : ¬kvE kv n ≤ xi := by
      rw [kvE_eq_kvF kv (by omega)]; exact not_le.mpr hhi
    obtain ⟨s, hps, hsn, hle, hgt⟩ :=
      exists_flip (fun j => kvE kv j ≤ xi) p n hpn hPlo hPhi
    have hgt' : xi < kvE kv (s + 1) := not_le.mp hgt
    have hsub : Finset.Ico (s - p) (s + 1) ⊆ Finset.range n := by
      intro x hx
      rw [Finset.mem_Ico] at hx
      rw [Finset.mem_range]
      omega
    have hvanish : ∀ i ∈ Finset.range n, i ∉ Finset.Ico (s - p) (s + 1) →
        basisAux (kvE kv) p p false i xi = 0 := by
      intro i hi hni
      rw [Finset.mem_range] at hi
      rw [Finset.mem_Ico] at hni
      push_neg at hni
      rcases Nat.lt_or_ge i (s - p) with hlt | hge
      · refine basisAux_support (kvE kv) hm p p i xi (Or.inr ?_)
        exact le_trans (hm (by omega : i + p + 1 ≤ s)) hle
      · have hsi : s + 1 ≤ i := hni hge
        refine basisAux_support (kvE kv) hm p p i xi (Or.inl ?_)
        exact lt_of_lt_of_le hgt' (hm hsi)
    rw [← Finset.sum_subset hsub hvanish, Finset.sum_Ico_eq_sum_range,
      show s + 1 - (s - p) = p + 1 from by omega]
    have := basisAux_local_sum (kvE kv) hm p xi p (s - p)
      (by rw [show s - p + p = s from by omega]; exact hle)
      (by rw [show s - p + p + 1 = s + 1 from by omega]; exact hgt')
    rw [← this]
  · exfalso
    have : kvF kv n ≤ kvF kv p := kvF_mono kv hs hpn (by omega)
    have : xi < xi := lt_of_lt_of_le (lt_of_lt_of_le hhi this) hlo
    exact lt_irrefl _ this

/-- Witness for C7 on the open knot vector `[0, 0, 1, 1]`, degree 1,
`ξ = 1/2`. -/
theorem bspline_partition_of_unity_witness :
    List.Sorted (· ≤ ·) ([0, 0, 1, 1] : List ℚ) ∧
    (1 : ℕ) + 1 < ([0, 0, 1, 1] : List ℚ).length ∧
    kvF [0, 0, 1, 1] 1 ≤ (1/2 : ℚ) ∧
    (1/2 : ℚ) < kvF [0, 0, 1, 1] (([0, 0, 1, 1] : List ℚ).length - 1 - 1) ∧
    (evalRow [0, 0, 1, 1] 1 (1/2)).sum = 1 :=
  ⟨by norm_num [List.sorted_cons], by norm_num, by norm_num [kvF],
   by norm_num [kvF],
   bspline_partition_of_unity [0, 0, 1, 1] 1 (1/2)
     (by norm_num [List.sorted_cons]) (by norm_num)
     (by norm_num [kvF]) (by norm_num [kvF])⟩

/-- C10: evaluating any `Bspline` over a non-decreasing knot vector at the
largest knot `knot[len-1]` returns a row of all zeros (the half-open
convention excludes the right endpoint), so the partition-of-unity sum is `0`
there, and the NURBS rational denominator `W(ξ, η)` vanishes for every `η`,
weight grid and second knot vector. -/
theorem right_endpoint_all_zero (kv : List ℚ) (p : ℕ)
    (hs : List.Sorted (· ≤ ·) kv) (kv2 : List ℚ) (p2 : ℕ) (w : ℕ → ℕ → ℚ)
    (eta : ℚ) :
    (∀ v ∈ evalRow kv p (kvF kv (kv.length - 1)), v = 0) ∧
    (evalRow kv p (kvF kv (kv.length - 1))).sum = 0 ∧
    Wfun kv p kv2 p2 w (kvF kv (kv.length - 1)) eta = 0 := by
  have key : ∀ i, i < kv.length - p - 1 →
      evalBasis (kvF kv) p i (kvF kv (kv.length - 1)) = 0 := by
    intro i hi
    refine basisAux_zero_of_upper (kvF kv) p p false i _ ?_
    intro j hj
    exact kvF_mono kv hs (show j ≤ kv.length - 1 by omega) (by omega)
  have hall : ∀ v ∈ evalRow kv p (kvF kv (kv.length - 1)), v = 0 := by
    intro v hv
    rw [evalRow, List.mem_map] at hv
    obtain ⟨i, hi, rfl⟩ := hv
    rw [List.mem_range] at hi
    exact key i hi
  refine ⟨hall, List.sum_eq_zero hall, ?_⟩
  rw [Wfun]
  refine Finset.sum_eq_zero fun i hi => ?_
  rw [Finset.mem_range, numBasis] at hi
  refine Finset.sum_eq_zero fun j _ => ?_
  rw [key i hi, zero_mul, zero_mul]

/-- Witness for C10 on `[0, 0, 1, 1]`, degree 1, at the right endpoint. -/
theorem right_endpoint_all_zero_witness :
    List.Sorted (· ≤ ·) ([0, 0, 1, 1] : List ℚ) ∧
    (evalRow [0, 0, 1, 1] 1 (kvF [0, 0, 1, 1] (([0, 0, 1, 1] : List ℚ).length - 1))).sum = 0 ∧
    Wfun [0, 0, 1, 1] 1 [0, 0, 1, 1] 1 (fun _ _ => 1)
      (kvF [0, 0, 1, 1] (([0, 0, 1, 1] : List ℚ).length - 1)) (1/2) = 0 :=
  ⟨by norm_num [List.sorted_cons],
   (right_endpoint_all_zero [0, 0, 1, 1] 1 (by norm_num [List.sorted_cons])
     [0, 0, 1, 1] 1 (fun _ _ => 1) (1/2)).2.1,
   (right_endpoint_all_zero [0, 0, 1, 1] 1 (by norm_num [List.sorted_cons])
     [0, 0, 1, 1] 1 (fun _ _ => 1) (1/2)).2.2⟩

/-- C3 counterexample: at the right endpoint of the knot vector `[0, 1]` the
degree-0 row is `[0]` — no entry equals `1.0`, so this evaluation point does
NOT yield exactly one nonzero entry. -/
theorem degree0_right_endpoint_no_nonzero :
    evalRow [(0 : ℚ), 1] 0 1 = [0] ∧ (1 : ℚ) ∉ evalRow [(0 : ℚ), 1] 0 1 := by
  have h : evalRow [(0 : ℚ), 1] 0 1 = [0] := by
    norm_num [evalRow, evalBasis, basisAux, basis0, termCoef, kvF,
      List.range_succ]
  exact ⟨h, by rw [h]; norm_num⟩

/-- C3 (amended): entry `i` of a degree-0 row is `1` exactly when
`knot[i] ≤ ξ < knot[i+1]` and `0` otherwise, for every `ξ`; and for every
non-decreasing knot vector and every `ξ` lying in some knot span (that is,
`knot[0] ≤ ξ < knot[len-1]`) there is exactly one nonzero entry, located at
the span containing `ξ`.  (Points outside all spans — in particular the
right endpoint — yield a row of zeros.) -/
theorem degree0_half_open_spans (kv : List ℚ) (xi : ℚ) :
    (∀ i, i < kv.length - 1 →
      (evalRow kv 0 xi).getD i 0 =
        if kvF kv i ≤ xi ∧ xi < kvF kv (i + 1) then 1 else 0) ∧
    (List.Sorted (· ≤ ·) kv → kvF kv 0 ≤ xi → xi < kvF kv (kv.length - 1) →
      ∃ s, s < kv.length - 1 ∧ kvF kv s ≤ xi ∧ xi < kvF kv (s + 1) ∧
        (evalRow kv 0 xi).getD s 0 = 1 ∧
        ∀ i, i < kv.length - 1 → i ≠ s → (evalRow kv 0 xi).getD i 0 = 0) := by
  have hlen : (evalRow kv 0 xi).length = kv.length - 1 := by
    simp [evalRow]
  have hentry : ∀ i, i < kv.length - 1 →
      (evalRow kv 0 xi).getD i 0 =
        if kvF kv i ≤ xi ∧ xi < kvF kv (i + 1) then 1 else 0 := by
    intro i hi
    rw [List.getD_eq_getElem _ _ (by rw [hlen]; exact hi)]
    simp [evalRow, evalBasis, basisAux, basis0]
  refine ⟨hentry, fun hs h0 hL => ?_⟩
  have hL2 : 2 ≤ kv.length := by
    by_contra h
    push_neg at h
    have h1 : kv.length - 1 = 0 := by omega
    rw [h1] at hL
    exact absurd (lt_of_le_of_lt h0 hL) (lt_irrefl _)
  obtain ⟨s, h0s, hs1, hPs, hPs1⟩ :=
    exists_flip (fun j => kvF kv j ≤ xi) 0 (kv.length - 1) (by omega) h0
      (not_le.mpr hL)
  have hgt : xi < kvF kv (s + 1) := not_le.mp hPs1
  refine ⟨s, hs1, hPs, hgt, ?_, ?_⟩
  · rw [hentry s hs1, if_pos ⟨hPs, hgt⟩]
  · intro i hi hne
    rw [hentry i hi, if_neg]
    rintro ⟨hi1, hi2⟩
    rcases Nat.lt_or_ge i s with hlt | hge
    · exact absurd hi2 (not_lt.mpr
        (le_trans (kvF_mono kv hs (show i + 1 ≤ s by omega) (by omega)) hPs))
    · exact absurd hi1 (not_le.mpr (lt_of_lt_of_le hgt
        (kvF_mono kv hs (show s + 1 ≤ i by omega) (by omega))))

/-- Witness for C3 (amended) on `[0, 0, 1, 1]`, degree 0, `ξ = 1/2`. -/
theorem degree0_half_open_spans_witness :
    ((evalRow [0, 0, 1, 1] 0 (1/2)).getD 1 0 =
      if kvF [0, 0, 1, 1] 1 ≤ (1/2 : ℚ) ∧ (1/2 : ℚ) < kvF [0, 0, 1, 1] (1 + 1)
      then 1 else 0) ∧
    List.Sorted (· ≤ ·) ([0, 0, 1, 1] : List ℚ) ∧
    (∃ s, s < ([0, 0, 1, 1] : List ℚ).length - 1 ∧
      kvF [0, 0, 1, 1] s ≤ (1/2 : ℚ) ∧ (1/2 : ℚ) < kvF [0, 0, 1, 1] (s + 1) ∧
      (evalRow [0, 0, 1, 1] 0 (1/2)).getD s 0 = 1 ∧
      ∀ i, i < ([0, 0, 1, 1] : List ℚ).length - 1 → i ≠ s →
        (evalRow [0, 0, 1, 1] 0 (1/2)).getD i 0 = 0) :=
  ⟨(degree0_half_open_spans [0, 0, 1, 1] (1/2)).1 1 (by norm_num),
   by norm_num [List.sorted_cons],
   (degree0_half_open_spans [0, 0, 1, 1] (1/2)).2
     (by norm_num [List.sorted_cons]) (by norm_num [kvF]) (by norm_num [kvF])⟩

/-! ### Connectivity structure -/

/-- Linear indexing into a row-major flattened `P × C` grid of values. -/
theorem grid_get {α : Type} :
    ∀ (P : ℕ) (f : ℕ → ℕ → α) (C r c : ℕ), r < P → c < C →
      (((List.range P).map fun a => (List.range C).map fun b => f a b).flatten)[r * C + c]?
        = some (f r c) := by
  intro P
  induction P with
  | zero => intro f C r c hr _; omega
  | succ P ih =>
    intro f C r c hr hc
    rw [List.range_succ_eq_map, List.map_cons, List.flatten_cons, List.map_map]
    cases r with
    | zero =>
      rw [Nat.zero_mul, Nat.zero_add, List.getElem?_append,
        if_pos (by simpa using hc), List.getElem?_map, List.getElem?_range hc]
      rfl
    | succ r =>
      rw [show (r + 1) * C + c = C + (r * C + c) from by ring,
        List.getElem?_append_right (by simp),
        show C + (r * C + c) - ((List.range C).map fun b => f 0 b).length
          = r * C + c from by simp]
      have hcomp : ((fun a => (List.range C).map fun b => f a b) ∘ Nat.succ)
          = fun a => (List.range C).map fun b => f (a + 1) b := by
        funext a
        simp [Function.comp, Nat.succ_eq_add_one]
      rw [hcomp]
      exact ih (fun a b => f (a + 1) b) C r c (by omega) hc

/-- Length of a row-major flattened `P × C` grid. -/
theorem grid_length {α : Type} (P : ℕ) (f : ℕ → ℕ → α) (C : ℕ) :
    (((List.range P).map fun a => (List.range C).map fun b => f a b).flatten).length
      = P * C := by
  rw [List.length_flatten, List.map_map]
  have : (List.length ∘ fun a => (List.range C).map fun b => f a b)
      = fun _ => C := by
    funext a
    simp
  rw [this, List.map_const', List.sum_replicate, List.length_range,
    smul_eq_mul]

theorem connRow_length (n1 p1 p2 i j : ℕ) :
    (connRow n1 p1 p2 i j).length = (p2 + 1) * (p1 + 1) := by
  rw [connRow, List.length_reverse, grid_length]

theorem buildConnectivity_length (n1 n2 p1 p2 : ℕ) :
    (buildConnectivity n1 n2 p1 p2).length = (n1 - p1) * (n2 - p2) := by
  rw [buildConnectivity, List.length_flatten, List.map_map]
  have : (List.length ∘ fun j => (List.range' p1 (n1 - p1)).map
      fun i => connRow n1 p1 p2 i j) = fun _ => n1 - p1 := by
    funext j
    simp
  rw [this, List.map_const', List.sum_replicate, List.length_range',
    smul_eq_mul, Nat.mul_comm]

/-- C6: the connectivity array has exactly `(n1-p1)*(n2-p2)` rows (one per
corner pair `(i,j)` with `i ≥ p1`, `j ≥ p2`); each row is the reversed
row-major flattening of the slice `[j-p2 : j+1, i-p1 : i+1]` of the eta-major
id grid, so its entry at local position `a*(p1+1)+b` is the global id
`(j-a)*n1 + (i-b)` — the row starts at the corner id `j*n1+i` and walks
backward, first along ξ then along η; in particular for `p1 = p2 = 1` and
knot vectors `[0,0,1,1]` in each direction (`n1 = n2 = 2`) there is exactly
one element whose row has 4 entries, `[3, 2, 1, 0]`. -/
theorem connectivity_structure :
    (∀ n1 n2 p1 p2 : ℕ,
      (buildConnectivity n1 n2 p1 p2).length = (n1 - p1) * (n2 - p2)) ∧
    (∀ n1 p1 p2 i j a b : ℕ, p1 ≤ i → p2 ≤ j → a ≤ p2 → b ≤ p1 →
      (connRow n1 p1 p2 i j)[a * (p1 + 1) + b]? =
        some ((j - a) * n1 + (i - b))) ∧
    numBasis [0, 0, 1, 1] 1 = 2 ∧
    buildConnectivity (numBasis [0, 0, 1, 1] 1) (numBasis [0, 0, 1, 1] 1) 1 1
      = [[3, 2, 1, 0]] ∧
    (connRow 2 1 1 1 1).length = 4 := by
  refine ⟨buildConnectivity_length, ?_, rfl, by decide, by decide⟩
  intro n1 p1 p2 i j a b hi hj ha hb
  have hk : a * (p1 + 1) + b < (p2 + 1) * (p1 + 1) := by
    have h1 : a * (p1 + 1) ≤ p2 * (p1 + 1) := Nat.mul_le_mul_right _ ha
    have e : (p2 + 1) * (p1 + 1) = p2 * (p1 + 1) + p1 + 1 := by ring
    rw [e]
    exact lt_of_le_of_lt (add_le_add h1 hb) (Nat.lt_succ_self _)
  have hlen := grid_length (p2 + 1)
    (fun a b => (j - p2 + a) * n1 + (i - p1 + b)) (p1 + 1)
  rw [connRow, List.getElem?_reverse (by rw [hlen]; exact hk), hlen]
  have hidx : (p2 + 1) * (p1 + 1) - 1 - (a * (p1 + 1) + b)
      = (p2 - a) * (p1 + 1) + (p1 - b) := by
    obtain ⟨a2, rfl⟩ := Nat.le.dest ha
    obtain ⟨b2, rfl⟩ := Nat.le.dest hb
    rw [Nat.add_sub_cancel_left, Nat.add_sub_cancel_left, Nat.sub_sub]
    apply Nat.sub_eq_of_eq_add
    ring
  rw [hidx, grid_get (p2 + 1) _ (p1 + 1) (p2 - a) (p1 - b) (by omega) (by omega),
    show j - p2 + (p2 - a) = j - a from by omega,
    show i - p1 + (p1 - b) = i - b from by omega]

/-- Witness for C6: the first entry of the single bilinear row is the corner
id `(1-0)*2 + (1-0) = 3`. -/
theorem connectivity_structure_witness :
    (1 : ℕ) ≤ 1 ∧ (1 : ℕ) ≤ 1 ∧ (0 : ℕ) ≤ 1 ∧ (0 : ℕ) ≤ 1 ∧
    (connRow 2 1 1 1 1)[0 * (1 + 1) + 0]? = some ((1 - 0) * 2 + (1 - 0)) :=
  ⟨le_refl 1, le_refl 1, Nat.zero_le 1, Nat.zero_le 1,
   connectivity_structure.2.1 2 1 1 1 1 0 0 (le_refl 1) (le_refl 1)
     (Nat.zero_le 1) (Nat.zero_le 1)⟩

/-! ### Assembly -/

theorem scatterAdd_eq (K : ℕ → ℕ → ℚ) (row : List ℕ) (ke : ℕ → ℕ → ℚ)
    (r c : ℕ) :
    scatterAdd K row ke r c = K r c + scatterTerm row ke r c := by
  rw [scatterAdd, scatterTerm]
  by_cases h : r ∈ row ∧ c ∈ row
  · rw [if_pos h, if_pos h]
  · rw [if_neg h, if_neg h, add_zero]

theorem foldl_scatterAdd (rows : ℕ → List ℕ) (kes : ℕ → ℕ → ℕ → ℚ) :
    ∀ (l : List ℕ) (K : ℕ → ℕ → ℚ) (r c : ℕ),
      (l.foldl (fun K e => scatterAdd K (rows e) (kes e)) K) r c =
        K r c + (l.map fun e => scatterTerm (rows e) (kes e) r c).sum := by
  intro l
  induction l with
  | nil => intro K r c; simp
  | cons e l ih =>
    intro K r c
    rw [List.foldl_cons, ih, List.map_cons, List.sum_cons, scatterAdd_eq]
    ring

/-- C8 counterexample: `assemble` does not leave every attribute other than
`K` unchanged — on the regular 2×2-element patch it creates/sets the `dRdx`
attribute (a side effect of `__compute_element_stiffness`, lines 383–387),
which was absent (`none`) before the call. -/
theorem assemble_creates_dRdx :
    (assemble gq2pt stC8).dRdx ≠ stC8.dRdx ∧ stC8.dRdx = none := by
  constructor
  · show some _ ≠ (mkIGA2D _ _ _ _ _ _).dRdx
    rw [mkIGA2D]
    simp
  · rfl

/-- C8 (amended): during `assemble()` the only attributes written are `K`,
`dRdx` and `dRdy` (the latter two are set by `__compute_element_stiffness`);
the knot vectors, degrees, weights, control-point coordinates, basis counts,
`nurbs_coords` and the connectivity array are unchanged, and `K` changes
exactly by the additive scatter of each element's local stiffness block at
its connectivity-row indices. -/
theorem assemble_frame_and_scatter (gq : GaussData) (st : IGA2D) :
    (assemble gq st).kv1 = st.kv1 ∧ (assemble gq st).p1 = st.p1 ∧
    (assemble gq st).kv2 = st.kv2 ∧ (assemble gq st).p2 = st.p2 ∧
    (assemble gq st).weights = st.weights ∧
    (assemble gq st).x = st.x ∧ (assemble gq st).y = st.y ∧
    (assemble gq st).num1 = st.num1 ∧ (assemble gq st).num2 = st.num2 ∧
    (assemble gq st).numGlobal = st.numGlobal ∧
    (assemble gq st).numElems = st.numElems ∧
    (assemble gq st).nurbsCoords = st.nurbsCoords ∧
    (assemble gq st).connectivity = st.connectivity ∧
    (∀ r c, (assemble gq st).K r c = st.K r c +
      ((List.range st.numElems).map fun e =>
        scatterTerm (conRow st e) (keFun gq st e) r c).sum) ∧
    (assemble gq st).dRdx = some (dRdxLoc gq st) ∧
    (assemble gq st).dRdy = some (dRdyLoc gq st) := by
  refine ⟨rfl, rfl, rfl, rfl, rfl, rfl, rfl, rfl, rfl, rfl, rfl, rfl, rfl,
    ?_, rfl, rfl⟩
  intro r c
  exact foldl_scatterAdd (conRow st) (keFun gq st) (List.range st.numElems)
    st.K r c

/-! ### Degenerate Jacobian determinant -/

theorem getD_zero_of_all_zero :
    ∀ l : List ℚ, (∀ v ∈ l, v = 0) → ∀ k, l.getD k 0 = 0 := by
  intro l
  induction l with
  | nil => intro _ k; cases k <;> rfl
  | cons a l ih =>
    intro h k
    cases k with
    | zero => exact h a (List.mem_cons_self a l)
    | succ k => exact ih (fun v hv => h v (List.mem_cons_of_mem a hv)) k

theorem stC2_x_zero : ∀ k, stC2.x.getD k 0 = 0 := by
  apply getD_zero_of_all_zero
  intro v hv
  simp only [stC2, mkIGA2D, cptsZero] at hv
  simp at hv
  exact hv

theorem stC2_y_zero : ∀ k, stC2.y.getD k 0 = 0 := by
  apply getD_zero_of_all_zero
  intro v hv
  simp only [stC2, mkIGA2D, cptsZero] at hv
  simp at hv
  exact hv

theorem stC2_J_zero (g e : ℕ) :
    J11 gq2pt stC2 g e = 0 ∧ J12 gq2pt stC2 g e = 0 ∧
    J21 gq2pt stC2 g e = 0 ∧ J22 gq2pt stC2 g e = 0 := by
  refine ⟨?_, ?_, ?_, ?_⟩ <;>
    [rw [J11]; rw [J12]; rw [J21]; rw [J22]] <;>
    refine Finset.sum_eq_zero fun a _ => ?_ <;>
    first
      | rw [stC2_x_zero, zero_mul]
      | rw [stC2_y_zero, zero_mul]

/-- C2: the claim fails on the code (strengthened to the spec's intent, this
is a code bug).  On the degenerate patch `stC2` — every control point at the
origin — the Jacobian determinant is `0` at every quadrature point of every
element, yet nothing detects it: lines 366–369 divide by `detJ` unguarded
(here `0/0 = 0` in exact arithmetic; NumPy would silently produce
`inf`/`nan`), the element stiffness evaluates to `0`, and `assemble`
completes normally, leaving `K` unchanged — no error is ever surfaced. -/
theorem detJ_zero_not_detected :
    (∀ g e, detJ gq2pt stC2 g e = 0) ∧
    (∀ g e, Jinv11 gq2pt stC2 g e = 0 ∧ Jinv12 gq2pt stC2 g e = 0 ∧
      Jinv21 gq2pt stC2 g e = 0 ∧ Jinv22 gq2pt stC2 g e = 0) ∧
    (∀ e a b, keFun gq2pt stC2 e a b = 0) ∧
    (∀ r c, (assemble gq2pt stC2).K r c = stC2.K r c) := by
  have hdet : ∀ g e, detJ gq2pt stC2 g e = 0 := by
    intro g e
    obtain ⟨h11, h12, h21, h22⟩ := stC2_J_zero g e
    rw [detJ, h11, h12, h21, h22]
    ring
  have hinv : ∀ g e, Jinv11 gq2pt stC2 g e = 0 ∧ Jinv12 gq2pt stC2 g e = 0 ∧
      Jinv21 gq2pt stC2 g e = 0 ∧ Jinv22 gq2pt stC2 g e = 0 := by
    intro g e
    obtain ⟨h11, h12, h21, h22⟩ := stC2_J_zero g e
    refine ⟨?_, ?_, ?_, ?_⟩
    · rw [Jinv11, h22, zero_div]
    · rw [Jinv12, h12, neg_zero, zero_div]
    · rw [Jinv21, h21, neg_zero, zero_div]
    · rw [Jinv22, h11, zero_div]
  have hke : ∀ e a b, keFun gq2pt stC2 e a b = 0 := by
    intro e a b
    rw [keFun]
    refine Finset.sum_eq_zero fun g _ => ?_
    obtain ⟨hi11, hi12, hi21, hi22⟩ := hinv g e
    rw [dRdxLoc, dRdyLoc, hi11, hi12, hi21, hi22]
    ring
  refine ⟨hdet, hinv, hke, fun r c => ?_⟩
  rw [show (assemble gq2pt stC2).K r c = stC2.K r c +
      ((List.range stC2.numElems).map fun e =>
        scatterTerm (conRow stC2 e) (keFun gq2pt stC2 e) r c).sum from
    foldl_scatterAdd (conRow stC2) (keFun gq2pt stC2) _ stC2.K r c]
  rw [List.sum_eq_zero, add_zero]
  intro v hv
  rw [List.mem_map] at hv
  obtain ⟨e, _, rfl⟩ := hv
  rw [scatterTerm]
  by_cases h : r ∈ conRow stC2 e ∧ c ∈ conRow stC2 e
  · rw [if_pos h, hke]
  · rw [if_neg h]

end IGAspec
